import Mathlib

/-!
# Resource pool and task runner

A shallow embedding of `pool.go` (a bounded pool of `io.Closer` resources kept
in a buffered channel) and `runner.go` (a sequential task runner that polls an
interrupt channel between tasks), followed by theorems about them.

Modelling conventions.

* A Go `error` is `Option Err`; `none` is `nil`.
* A Go pair `(io.Closer, error)` is `Option R × Option Err`; `R` is the type of
  non-nil resources, `none` is the nil interface value.
* A channel is its buffer, its capacity and its closed flag.  A run-time panic
  or a receive that can never complete is a `Fault`.
* Integers are those of a 64-bit platform: `uint` ranges over `0 .. 2^64 - 1`.
  The most memory the runtime grants to one channel buffer differs between
  platforms and is a parameter, `memLimit`.
* Calls are sequential: every operation runs to completion before the next one
  starts, so `mutex.Lock` always succeeds at once and is not part of the state.
* Caller-supplied code (the factory, a resource's `Close` method, a task) is a
  state-passing function over a caller state `W`.  Every call the pool or the
  runner makes to such code is appended to a log, which is how "called exactly
  once" and "not called" are stated.
* Console and log output is not modelled.
-/

namespace PoolRunner

/-! ## Errors and faults -/

/-- Error values.  The three sentinels are the package-level variables of the
source; `New msg` is any other value made by `errors.New`. -/
inductive Err where
  | ErrPoolClosed
  | ErrTimeOut
  | ErrInterrupt
  | New (msg : String)
  deriving DecidableEq, Repr

/-- Abnormal ends of a Go operation. -/
inductive Fault where
  | panic
  | deadlock
  deriving DecidableEq, Repr

/-! ## Channels -/

/-- Buffered channel: queued values (oldest first), capacity, closed flag. -/
structure Chan (α : Type) where
  buf : List α
  cap : Nat
  closed : Bool
  deriving DecidableEq, Repr

namespace Chan

variable {α : Type}

/-- Open empty channel of capacity `size`: what `make(chan α)` and
`make(chan α, 1)` of `NewRunner` return, and what `makechan` returns for a size
it accepts. -/
def make (size : Nat) : Chan α :=
  { buf := [], cap := size, closed := false }

/-- Channel creation `make(chan α, size)` with `size` a `uint` variable and
elements of `elemSize` bytes, as the runtime's `makechan` does it: it panics
(`makechan: size out of range`) when the buffer size in bytes overflows a
machine word, exceeds `memLimit`, or when `size` is negative once converted to
`int`. -/
def makechan (memLimit elemSize size : Nat) : Except Fault (Chan α) :=
  if 2 ^ 64 ≤ elemSize * size ∨ memLimit < elemSize * size ∨ 2 ^ 63 ≤ size then
    .error Fault.panic
  else .ok (make size)

/-- Builtin `close(c)`; closing a closed channel panics. -/
def close (c : Chan α) : Except Fault (Chan α) :=
  if c.closed then .error Fault.panic else .ok { c with closed := true }

/-- Receive case of a `select` that has a `default`: `none` when the receive is
not ready, otherwise the value, the `ok` flag and the channel afterwards.  A
closed and drained channel is ready and yields the zero value with `ok = false`. -/
def tryRecv (c : Chan α) : Option (Option α × Bool × Chan α) :=
  match c.buf with
  | x :: xs => some (some x, true, { c with buf := xs })
  | [] => if c.closed then some (none, false, c) else none

/-- Send case of a `select` that has a `default`: panics on a closed channel,
`none` when the buffer is full, otherwise the channel with the value queued. -/
def trySend (c : Chan α) (v : α) : Except Fault (Option (Chan α)) :=
  if c.closed then .error Fault.panic
  else if c.buf.length < c.cap then .ok (some { c with buf := c.buf ++ [v] })
  else .ok none

/-- Outcome of one step of `for v := range c`. -/
inductive Next (α : Type) where
  | value (v : α) (rest : Chan α)
  | done
  | block

/-- One step of `for v := range c`: the next value, the end of the loop (closed
and drained), or a receive that waits on an open empty channel. -/
def next (c : Chan α) : Next α :=
  match c.buf with
  | x :: xs => Next.value x { c with buf := xs }
  | [] => if c.closed then Next.done else Next.block

end Chan

/-! ## The pool -/

/-- Calls made by the pool to caller-supplied code. -/
inductive Call (R : Type) where
  | factory
  | close (r : R)
  deriving DecidableEq, Repr

/-- State outside the pool: the caller state and the log of calls made so far. -/
structure World (R W : Type) where
  st : W
  calls : List (Call R)

/-- Method `Close` of the resources, the only capability of `io.Closer`. -/
abbrev Closer (R W : Type) := R → W → Option Err × W

/-- Type of the factory, `func() (io.Closer, error)`. -/
abbrev Factory (R W : Type) := W → (Option R × Option Err) × W

/-- Evaluate `r.Close()` and log the call. -/
def callClose {R W : Type} (cl : Closer R W) (r : R) (w : World R W) :
    Option Err × World R W :=
  ((cl r w.st).1, { st := (cl r w.st).2, calls := w.calls ++ [Call.close r] })

/-- Evaluate `p.factory()` and log the call. -/
def callFactory {R W : Type} (fn : Factory R W) (w : World R W) :
    (Option R × Option Err) × World R W :=
  ((fn w.st).1, { st := (fn w.st).2, calls := w.calls ++ [Call.factory] })

/-- Struct `Pool` without its mutex. -/
structure Pool (R W : Type) where
  res : Chan R
  factory : Factory R W
  closed : Bool

/-- Result of a pool method that returns `error`. -/
abbrev Step (R W : Type) := Except Fault (Option Err × Pool R W × World R W)

/-- Size in bytes of an `io.Closer` value, an interface of two machine words. -/
def closerSize : Nat := 16

/-- Constructor `NewPool(fn, size)`; `size` is a `uint`.  A panic of
`make(chan io.Closer, size)` ends the call with neither pool nor error. -/
def NewPool {R W : Type} (memLimit : Nat) (fn : Factory R W) (size : Nat) :
    Except Fault (Option (Pool R W) × Option Err) :=
  if size ≤ 0 then
    .ok (none, some (Err.New "size must be greater than 0"))
  else
    match Chan.makechan memLimit closerSize size with
    | .error f => .error f
    | .ok ch => .ok (some { factory := fn, res := ch, closed := false }, none)

namespace Pool

variable {R W : Type}

/-- Method `Close`.  The body of the `range` loop returns in its first
iteration, so the loop is one `Chan.next`. -/
def Close (cl : Closer R W) (p : Pool R W) (w : World R W) : Step R W :=
  if p.closed then
    .ok (some Err.ErrPoolClosed, p, w)
  else
    match p.res.close with
    | .error f => .error f
    | .ok ch =>
      match ch.next with
      | Chan.Next.value r rest =>
        .ok ((callClose cl r w).1, { p with closed := true, res := rest }, (callClose cl r w).2)
      | Chan.Next.done => .ok (none, { p with closed := true, res := ch }, w)
      | Chan.Next.block => .error Fault.deadlock

/-- Method `Acquire`. -/
def Acquire (p : Pool R W) (w : World R W) :
    (Option R × Option Err) × Pool R W × World R W :=
  match p.res.tryRecv with
  | some (r, ok, ch) =>
    if !ok then ((none, some Err.ErrPoolClosed), { p with res := ch }, w)
    else ((r, none), { p with res := ch }, w)
  | none => ((callFactory p.factory w).1, p, (callFactory p.factory w).2)

/-- Method `Release`. -/
def Release (cl : Closer R W) (p : Pool R W) (r : R) (w : World R W) : Step R W :=
  if p.closed then
    .ok ((callClose cl r w).1, p, (callClose cl r w).2)
  else
    match p.res.trySend r with
    | .error f => .error f
    | .ok (some ch) => .ok (none, { p with res := ch }, w)
    | .ok none => .ok ((callClose cl r w).1, p, (callClose cl r w).2)

/-- Representation invariant of the states the program builds: the channel is
closed exactly when the flag is set, it holds at most its capacity, and the
capacity is positive. -/
def WF (p : Pool R W) : Prop :=
  p.res.closed = p.closed ∧ p.res.buf.length ≤ p.res.cap ∧ 0 < p.res.cap

end Pool

/-! ## The runner -/

/-- Signals the runner subscribes to: `signal.Notify(r.interrupt, os.Interrupt)`
asks for `os.Interrupt` only. -/
inductive Signal where
  | Interrupt
  deriving DecidableEq, Repr

/-- Struct `Runner`.  `T` is the type of tasks.  `timeout` is the duration given
to `time.After`; `notify` tells whether `interrupt` is registered with the
signal package (set by `signal.Notify`, cleared by `signal.Stop`). -/
structure Runner (T : Type) where
  tasks : List T
  complete : Chan (Option Err)
  timeout : Nat
  interrupt : Chan Signal
  notify : Bool

/-- State outside the runner: the caller state and the log of task calls, each
with the argument it was given. -/
structure TaskWorld (T W : Type) where
  st : W
  ran : List (T × Nat)

/-- What surrounds a run: `exec t i` is the effect of the call `t(i)`, and
`arrives i` tells whether the process receives an `os.Interrupt` after the
previous iteration's check and before the check of iteration `i`. -/
structure RunEnv (T W : Type) where
  exec : T → Nat → W → W
  arrives : Nat → Bool

/-- Constructor `NewRunner(tm)`. -/
def NewRunner {T : Type} (tm : Nat) : Runner T :=
  { tasks := [], complete := Chan.make 0, timeout := tm,
    interrupt := Chan.make 1, notify := false }

namespace Runner

variable {T W : Type}

/-- Method `AddTask(tasks...)`. -/
def AddTask (r : Runner T) (tasks : List T) : Runner T :=
  { r with tasks := r.tasks ++ tasks }

/-- Registration `signal.Notify(r.interrupt, os.Interrupt)`, the first statement
of `Start`. -/
def signalNotify (r : Runner T) : Runner T :=
  { r with notify := true }

/-- Delivery of an arriving `os.Interrupt` by the signal package: a send that
does not block to the channel, if it is registered. -/
def deliver (arrived : Bool) (r : Runner T) : Except Fault (Runner T) :=
  if arrived && r.notify then
    match r.interrupt.trySend Signal.Interrupt with
    | .error f => .error f
    | .ok (some ch) => .ok { r with interrupt := ch }
    | .ok none => .ok r
  else .ok r

/-- Method `isInterrupt`. -/
def isInterrupt (r : Runner T) : Bool × Runner T :=
  match r.interrupt.tryRecv with
  | some (_, _, ch) => (true, { r with interrupt := ch, notify := false })
  | none => (false, r)

/-- Call `task(index)` and log it. -/
def callTask (env : RunEnv T W) (t : T) (index : Nat) (s : TaskWorld T W) :
    TaskWorld T W :=
  { st := env.exec t index s.st, ran := s.ran ++ [(t, index)] }

/-- Loop of `run` over the tasks that remain, `index` being the index of the
first of them. -/
def runLoop (env : RunEnv T W) :
    Nat → List T → Runner T → TaskWorld T W →
      Except Fault (Option Err × Runner T × TaskWorld T W)
  | _, [], r, s => .ok (none, r, s)
  | index, task :: rest, r, s =>
    match deliver (env.arrives index) r with
    | .error f => .error f
    | .ok r1 =>
      if r1.isInterrupt.1 then .ok (some Err.ErrInterrupt, r1.isInterrupt.2, s)
      else runLoop env (index + 1) rest r1.isInterrupt.2 (callTask env task index s)

/-- Method `run`. -/
def run (env : RunEnv T W) (r : Runner T) (s : TaskWorld T W) :
    Except Fault (Option Err × Runner T × TaskWorld T W) :=
  runLoop env 0 r.tasks r s

end Runner

/-! ## Sequences of pool calls -/

/-- Calls a client can make on a pool. -/
inductive Op (R : Type) where
  | acquire
  | release (r : R)
  | close
  deriving DecidableEq, Repr

namespace Pool

variable {R W : Type}

/-- State after one call; the returned values are dropped. -/
def step (cl : Closer R W) (p : Pool R W) (w : World R W) :
    Op R → Except Fault (Pool R W × World R W)
  | Op.acquire => .ok (p.Acquire w).2
  | Op.release r =>
    match p.Release cl r w with
    | .error f => .error f
    | .ok (_, p1, w1) => .ok (p1, w1)
  | Op.close =>
    match p.Close cl w with
    | .error f => .error f
    | .ok (_, p1, w1) => .ok (p1, w1)

/-- State after a sequence of calls made one after the other. -/
def exec (cl : Closer R W) : List (Op R) → Pool R W → World R W →
    Except Fault (Pool R W × World R W)
  | [], p, w => .ok (p, w)
  | op :: ops, p, w =>
    match step cl p w op with
    | .error f => .error f
    | .ok (p1, w1) => exec cl ops p1 w1

end Pool

/-- Function `dbQuery` without its sleep and its printing: acquire, return at
once on an error, otherwise release the connection when done (the deferred
call).  The type assertion on a nil connection panics.  The result is what
`Acquire` returned. -/
def dbQuery {R W : Type} (cl : Closer R W) (pool : Pool R W) (w : World R W) :
    Except Fault ((Option R × Option Err) × Pool R W × World R W) :=
  match (pool.Acquire w).1 with
  | (_, some _) => .ok (pool.Acquire w)
  | (none, none) => .error Fault.panic
  | (some conn, none) =>
    match (pool.Acquire w).2.1.Release cl conn (pool.Acquire w).2.2 with
    | .error f => .error f
    | .ok (_, p1, w1) => .ok ((pool.Acquire w).1, p1, w1)

/-- Run `n` acquire-then-release cycles one after the other and collect what
each `Acquire` returned. -/
def cycles {R W : Type} (cl : Closer R W) :
    Nat → Pool R W → World R W →
      Except Fault (List (Option R × Option Err) × Pool R W × World R W)
  | 0, p, w => .ok ([], p, w)
  | n + 1, p, w =>
    match dbQuery cl p w with
    | .error f => .error f
    | .ok (a, p1, w1) =>
      match cycles cl n p1 w1 with
      | .error f => .error f
      | .ok (as, p2, w2) => .ok (a :: as, p2, w2)

/-- A pool together with its world and the resources its client holds. -/
structure Client (R W : Type) where
  pool : Pool R W
  world : World R W
  held : List R

namespace Client

variable {R W : Type} [DecidableEq R]

/-- A resource is fresh when it is not in the store, is not held by the client
and has no `Close` call in the log. -/
def fresh (c : Client R W) (r : R) : Bool :=
  decide (r ∉ c.pool.res.buf) && decide (r ∉ c.held)
    && decide (Call.close r ∉ c.world.calls)

/-- One call by a disciplined client: it releases only what it holds, and what
the factory makes for it is fresh.  `none` when the call breaks the discipline
or the pool operation faults.  A resource returned by `Acquire` becomes held;
a released one stops being held. -/
def step (cl : Closer R W) (c : Client R W) : Op R → Option (Client R W)
  | Op.acquire =>
    match (c.pool.Acquire c.world).1.1 with
    | none => some { pool := (c.pool.Acquire c.world).2.1,
                     world := (c.pool.Acquire c.world).2.2, held := c.held }
    | some r =>
      if c.pool.res.tryRecv.isNone && !c.fresh r then none
      else some { pool := (c.pool.Acquire c.world).2.1,
                  world := (c.pool.Acquire c.world).2.2, held := c.held ++ [r] }
  | Op.release r =>
    if r ∈ c.held then
      match c.pool.Release cl r c.world with
      | .error _ => none
      | .ok (_, p1, w1) => some { pool := p1, world := w1, held := c.held.erase r }
    else none
  | Op.close =>
    match c.pool.Close cl c.world with
    | .error _ => none
    | .ok (_, p1, w1) => some { pool := p1, world := w1, held := c.held }

/-- A sequence of calls by a disciplined client. -/
def run (cl : Closer R W) : List (Op R) → Client R W → Option (Client R W)
  | [], c => some c
  | op :: ops, c =>
    match step cl c op with
    | none => none
    | some c1 => run cl ops c1

end Client

/-- What the discipline maintains: the store and the held resources have no
repetition and no resource in common, and no `Close` call is logged for any of
them. -/
structure Client.Inv {R W : Type} (c : Client R W) : Prop where
  store_nodup : c.pool.res.buf.Nodup
  held_nodup : c.held.Nodup
  disjoint : ∀ r ∈ c.pool.res.buf, r ∉ c.held
  store_open : ∀ r ∈ c.pool.res.buf, Call.close r ∉ c.world.calls
  held_open : ∀ r ∈ c.held, Call.close r ∉ c.world.calls

/-! ## Starting the runner -/

/-- The case of the `select` in `Start` that is taken: the worker's result is
received from `complete`, or the timer value is received from `timeout`. -/
inductive Race where
  | complete
  | timeout
  deriving DecidableEq, Repr

namespace Runner

variable {T W : Type}

/-- Method `Start`, given the case its `select` takes.  The worker goroutine
evaluates `r.run()` and offers the result on `complete`; when the timer is
received first the worker is left running and its result is never read. -/
def Start (env : RunEnv T W) (race : Race) (r : Runner T) (s : TaskWorld T W) :
    Except Fault (Option Err) :=
  match race with
  | Race.timeout => .ok (some Err.ErrTimeOut)
  | Race.complete =>
    match run env r.signalNotify s with
    | .error f => .error f
    | .ok (err, _, _) => .ok err

end Runner

/-! ## Concrete states used below -/

/-- Resource `Close` method that always succeeds, like `dbConnection.Close`. -/
def closeOk : Closer Nat Unit := fun _ w => (none, w)

/-- Factory that numbers its products by the calls made so far. -/
def countingFactory : Factory Nat Nat := fun n => ((some (n + 1), none), n + 1)

/-- Factory of a pool whose factory plays no part. -/
def idleFactory : Factory Nat Unit := fun w => ((none, some (Err.New "unused")), w)

/-- Open pool of capacity `cap` holding the idle resources `idle`. -/
def poolWith (cap : Nat) (idle : List Nat) : Pool Nat Unit :=
  { res := { buf := idle, cap := cap, closed := false }, factory := idleFactory,
    closed := false }

/-- Closed pool of capacity `cap` holding `idle`. -/
def closedPoolWith (cap : Nat) (idle : List Nat) : Pool Nat Unit :=
  { res := { buf := idle, cap := cap, closed := true }, factory := idleFactory,
    closed := true }

/-- World with no call logged. -/
def world0 : World Nat Unit := { st := (), calls := [] }

/-- What is observable of a step: the returned error, the store, the closed
flag and the call log. -/
def Step.view {R W : Type} (s : Step R W) :
    Except Fault (Option Err × List R × Bool × List (Call R)) :=
  match s with
  | .error f => .error f
  | .ok (e, p, w) => .ok (e, p.res.buf, p.closed, w.calls)

/-- Tasks are numbers and the caller state lists `(task, argument)` as the tasks
run; no interrupt ever arrives. -/
def quietEnv : RunEnv Nat (List (Nat × Nat)) :=
  { exec := fun t i st => st ++ [(t, i)], arrives := fun _ => false }

/-- Runner with timeout 10 and the given tasks, registered for interrupts, with
one interrupt already waiting in its channel. -/
def pendingRunner (tasks : List Nat) : Runner Nat :=
  { tasks := tasks, complete := Chan.make 0, timeout := 10,
    interrupt := { buf := [Signal.Interrupt], cap := 1, closed := false },
    notify := true }

/-- Task world in which nothing has run. -/
def taskWorld0 : TaskWorld Nat (List (Nat × Nat)) := { st := [], ran := [] }

/-- Resource `Close` method that fails on the resource `bad` only. -/
def closeFailing (bad : Nat) : Closer Nat Unit :=
  fun r w => (if r = bad then some (Err.New "close failed") else none, w)

/-- World of `countingFactory` in which `n` resources were made and no call is
logged. -/
def countWorld (n : Nat) : World Nat Nat := { st := n, calls := [] }

/-- Resource `Close` method over the state of `countingFactory`. -/
def closeCount : Closer Nat Nat := fun _ w => (none, w)

/-- Memory limit of a platform with 48 address bits and a channel header of 96
bytes. -/
def memLimit48 : Nat := 2 ^ 48 - 96

/-- Environment in which an interrupt arrives just before the check of
iteration `k` and at no other time. -/
def arrivesAt (k : Nat) : RunEnv Nat (List (Nat × Nat)) :=
  { exec := fun t i st => st ++ [(t, i)], arrives := fun i => decide (i = k) }

/-- Runner with timeout 10 and the given tasks, registered for interrupts, with
an empty interrupt channel. -/
def armedRunner (tasks : List Nat) : Runner Nat :=
  ((NewRunner 10).AddTask tasks).signalNotify

/-! ## Theorems: the pool -/

section PoolLemmas

variable {R W : Type}

theorem Pool.WF.chan_open {p : Pool R W} (hwf : p.WF) (hopen : p.closed = false) :
    p.res.closed = false := by
  rw [hwf.1, hopen]

theorem Chan.tryRecv_nil {α : Type} (c : Chan α) (hb : c.buf = []) (hc : c.closed = false) :
    c.tryRecv = none := by
  simp [Chan.tryRecv, hb, hc]

theorem Chan.makechan_ok {α : Type} (memLimit elemSize size : Nat)
    (h : ¬ (2 ^ 64 ≤ elemSize * size ∨ memLimit < elemSize * size ∨ 2 ^ 63 ≤ size)) :
    (Chan.makechan memLimit elemSize size : Except Fault (Chan α)) = .ok (Chan.make size) :=
  if_neg h

theorem Chan.makechan_panic {α : Type} (memLimit elemSize size : Nat)
    (h : 2 ^ 64 ≤ elemSize * size ∨ memLimit < elemSize * size ∨ 2 ^ 63 ≤ size) :
    (Chan.makechan memLimit elemSize size : Except Fault (Chan α)) = .error Fault.panic :=
  if_pos h

theorem Chan.tryRecv_cons {α : Type} (c : Chan α) (x : α) (xs : List α) (hb : c.buf = x :: xs) :
    c.tryRecv = some (some x, true, { c with buf := xs }) := by
  simp [Chan.tryRecv, hb]

end PoolLemmas

/-- C1 (the code departs from it): `Close` on the open pool of capacity 2 that
holds the idle resources 1 and 2 returns nil after calling `Close` on resource 1
only; resource 2 is never closed and is still in the store of the closed pool. -/
theorem close_closes_first_only :
    (Pool.Close closeOk (poolWith 2 [1, 2]) world0).view
      = .ok (none, [2], true, [Call.close 1]) := by
  rfl

/-- C2 (the code departs from it): after a successful `Close` of the open pool
of capacity 2 that holds the idle resources 1 and 2, the next `Acquire` returns
resource 2 with a nil error instead of `(nil, ErrPoolClosed)`; the second
`Acquire` after it is the first to report `ErrPoolClosed`. -/
theorem acquire_after_close_hands_out :
    ∃ e p1 w1, Pool.Close closeOk (poolWith 2 [1, 2]) world0 = .ok (e, p1, w1)
      ∧ p1.closed = true
      ∧ (p1.Acquire w1).1 = (some 2, none)
      ∧ (((p1.Acquire w1).2.1).Acquire (p1.Acquire w1).2.2).1
          = (none, some Err.ErrPoolClosed) :=
  ⟨_, _, _, rfl, rfl, rfl, rfl⟩

/-- C3: on an open pool whose store is empty, `Acquire` calls the factory once
(one factory call is appended to the log and nothing else), returns exactly the
pair the factory returned, and leaves the pool (store and closed flag) as it
was. -/
theorem acquire_empty_calls_factory {R W : Type} (p : Pool R W) (w : World R W)
    (hwf : p.WF) (hopen : p.closed = false) (hempty : p.res.buf = []) :
    p.Acquire w
      = ((p.factory w.st).1, p,
          { st := (p.factory w.st).2, calls := w.calls ++ [Call.factory] }) := by
  unfold Pool.Acquire
  rw [Chan.tryRecv_nil p.res hempty (hwf.chan_open hopen)]
  rfl

theorem acquire_empty_calls_factory_witness :
    (Pool.mk (Chan.make 2) countingFactory false).Acquire { st := 4, calls := [] }
      = ((some 5, none), Pool.mk (Chan.make 2) countingFactory false,
          { st := 5, calls := [Call.factory] }) :=
  acquire_empty_calls_factory (Pool.mk (Chan.make 2) countingFactory false)
    { st := 4, calls := [] } ⟨rfl, by decide, by decide⟩ rfl rfl

/-- C4: on an open pool, `Release r` with room in the store appends `r` to the
store, returns nil and leaves the world untouched (so `r` is not closed); with
a full store it calls `r.Close()` once, returns that call's result and leaves
the pool unchanged. -/
theorem release_open {R W : Type} (cl : Closer R W) (p : Pool R W) (r : R)
    (w : World R W) (hwf : p.WF) (hopen : p.closed = false) :
    (p.res.buf.length < p.res.cap →
      p.Release cl r w
        = .ok (none, { p with res := { p.res with buf := p.res.buf ++ [r] } }, w))
    ∧ (p.res.buf.length = p.res.cap →
      p.Release cl r w
        = .ok ((cl r w.st).1, p,
            { st := (cl r w.st).2, calls := w.calls ++ [Call.close r] })) := by
  have hc : p.res.closed = false := hwf.chan_open hopen
  constructor
  · intro hlt
    simp [Pool.Release, Chan.trySend, hopen, hc, hlt]
  · intro hfull
    simp [Pool.Release, Chan.trySend, hopen, hc, hfull, callClose]

theorem release_open_witness :
    (poolWith 2 [7]).WF ∧ (poolWith 2 [7, 8]).WF
      ∧ Pool.Release closeOk (poolWith 2 [7]) 8 world0
          = .ok (none, poolWith 2 [7, 8], world0)
      ∧ Pool.Release closeOk (poolWith 2 [7, 8]) 9 world0
          = .ok (none, poolWith 2 [7, 8], { st := (), calls := [Call.close 9] }) :=
  ⟨⟨rfl, by decide, by decide⟩, ⟨rfl, by decide, by decide⟩,
    (release_open closeOk (poolWith 2 [7]) 8 world0 ⟨rfl, by decide, by decide⟩ rfl).1
      (by decide),
    (release_open closeOk (poolWith 2 [7, 8]) 9 world0 ⟨rfl, by decide, by decide⟩ rfl).2
      rfl⟩

/-- C7 as stated fails: on the open pool of capacity 2 that holds the idle
resource 1, `Release 2` followed at once by `Acquire` returns resource 1, not
the released resource 2. -/
theorem acquire_after_release_returns_older :
    ∃ e p1 w1, Pool.Release closeOk (poolWith 2 [1]) 2 world0 = .ok (e, p1, w1)
      ∧ (p1.Acquire w1).1 = (some 1, none)
      ∧ (p1.Acquire w1).1 ≠ (some 2, none) :=
  ⟨_, _, _, rfl, rfl, by decide⟩

/-- C7 amended: on every open pool, `Release r` succeeds and the `Acquire` that
follows it does not call the factory (it leaves the world, log included, as
`Release` left it) and returns with a nil error the head of the store: the
oldest resource that was idle before the `Release`, which is `r` itself when
the store was empty. -/
theorem acquire_after_release {R W : Type} (cl : Closer R W) (p : Pool R W) (r : R)
    (w : World R W) (hwf : p.WF) (hopen : p.closed = false) :
    ∃ e p1 w1, p.Release cl r w = .ok (e, p1, w1)
      ∧ (p1.Acquire w1).1 = ((p.res.buf ++ [r]).head?, none)
      ∧ (p1.Acquire w1).2.2 = w1
      ∧ (p.res.buf = [] → (p1.Acquire w1).1 = (some r, none)) := by
  have hc : p.res.closed = false := hwf.chan_open hopen
  obtain ⟨-, hle, hpos⟩ := hwf
  by_cases hlt : p.res.buf.length < p.res.cap
  · refine ⟨none, { p with res := { p.res with buf := p.res.buf ++ [r] } }, w, ?_, ?_⟩
    · simp [Pool.Release, Chan.trySend, hopen, hc, hlt]
    · cases hb : p.res.buf with
      | nil => simp [Pool.Acquire, Chan.tryRecv]
      | cons x xs => simp [Pool.Acquire, Chan.tryRecv]
  · refine ⟨(callClose cl r w).1, p, (callClose cl r w).2, ?_, ?_⟩
    · simp [Pool.Release, Chan.trySend, hopen, hc, hlt]
    · cases hb : p.res.buf with
      | nil => rw [hb] at hlt; simp at hlt; omega
      | cons x xs => simp [Pool.Acquire, Chan.tryRecv, hb]

theorem acquire_after_release_witness :
    ∃ e p1 w1, Pool.Release closeOk (poolWith 2 []) 5 world0 = .ok (e, p1, w1)
      ∧ (p1.Acquire w1).1 = (([] ++ [5]).head?, none)
      ∧ (p1.Acquire w1).2.2 = w1
      ∧ ((poolWith 2 []).res.buf = [] → (p1.Acquire w1).1 = (some 5, none)) :=
  acquire_after_release closeOk (poolWith 2 []) 5 world0 ⟨rfl, by decide, by decide⟩ rfl

/-- C8: on a closed pool, `Release r` calls `r.Close()` once, returns exactly
that call's result, and leaves the pool (store and closed flag) unchanged, so
`r` is not placed in the store. -/
theorem release_closed {R W : Type} (cl : Closer R W) (p : Pool R W) (r : R)
    (w : World R W) (hclosed : p.closed = true) :
    p.Release cl r w
      = .ok ((cl r w.st).1, p,
          { st := (cl r w.st).2, calls := w.calls ++ [Call.close r] }) := by
  simp [Pool.Release, hclosed, callClose]

theorem release_closed_witness :
    Pool.Release closeOk (closedPoolWith 2 []) 3 world0
      = .ok (none, closedPoolWith 2 [], { st := (), calls := [Call.close 3] }) :=
  release_closed closeOk (closedPoolWith 2 []) 3 world0 rfl

/-- C9: on a pool that is already closed, `Close` returns `ErrPoolClosed`,
calls nothing (the world and its log are unchanged) and leaves the pool, store
and closed flag, unchanged. -/
theorem close_closed {R W : Type} (cl : Closer R W) (p : Pool R W) (w : World R W)
    (hclosed : p.closed = true) :
    p.Close cl w = .ok (some Err.ErrPoolClosed, p, w) := by
  simp [Pool.Close, hclosed]

theorem close_closed_witness :
    Pool.Close closeOk (closedPoolWith 2 [4]) world0
      = .ok (some Err.ErrPoolClosed, closedPoolWith 2 [4], world0) :=
  close_closed closeOk (closedPoolWith 2 [4]) world0 rfl

/-- C10 as stated fails: `2^62` is a valid `uint` size and is at least 1, yet
`NewPool` returns neither an open pool nor an error for it: the buffer of
`make(chan io.Closer, size)` would take `16 * 2^62` bytes, which overflows a
machine word, so `make` panics. -/
theorem newPool_panics_on_huge_size :
    2 ^ 62 < 2 ^ 64 ∧ 1 ≤ 2 ^ 62
      ∧ NewPool memLimit48 countingFactory (2 ^ 62) = .error Fault.panic := by
  refine ⟨by decide, by decide, ?_⟩
  simp [NewPool, Chan.makechan, closerSize]

/-- C10 amended: for a `uint` size, `NewPool fn size` returns an error, and no
pool, exactly when `size = 0`.  For `size ≥ 1` whose buffer of `16 * size`
bytes fits a machine word and the memory limit it returns, with a nil error,
an open pool that stores `fn` and whose store is an open empty channel of
capacity `size`; for every other `size ≥ 1` it panics. -/
theorem newPool_spec {R W : Type} (memLimit : Nat) (fn : Factory R W) (size : Nat)
    (_hsize : size < 2 ^ 64) :
    ((∃ e, NewPool memLimit fn size = .ok (none, some e)) ↔ size = 0)
    ∧ (1 ≤ size → 16 * size < 2 ^ 64 → 16 * size ≤ memLimit →
        NewPool memLimit fn size
          = .ok (some { res := { buf := [], cap := size, closed := false },
                        factory := fn, closed := false }, none))
    ∧ (1 ≤ size → 2 ^ 64 ≤ 16 * size ∨ memLimit < 16 * size →
        NewPool memLimit fn size = .error Fault.panic) := by
  rcases Nat.eq_zero_or_pos size with h | h
  · subst h
    simp [NewPool]
  · have h0 : ¬ size = 0 := by omega
    have h1 : ¬ size ≤ 0 := by omega
    refine ⟨?_, ?_, ?_⟩
    · simp only [h0, iff_false, not_exists]
      intro e he
      unfold NewPool at he
      simp only [h1, if_false] at he
      cases hm : (Chan.makechan memLimit closerSize size : Except Fault (Chan R)) with
      | error f => simp [hm] at he
      | ok ch => simp [hm] at he
    · intro _ hw hm
      have hcond : ¬ (2 ^ 64 ≤ closerSize * size ∨ memLimit < closerSize * size
          ∨ 2 ^ 63 ≤ size) := by
        simp only [closerSize]; omega
      simp only [NewPool, h1, if_false, Chan.makechan_ok memLimit closerSize size hcond]
      rfl
    · intro _ hout
      have hcond : 2 ^ 64 ≤ closerSize * size ∨ memLimit < closerSize * size
          ∨ 2 ^ 63 ≤ size := by
        simp only [closerSize]; omega
      simp only [NewPool, h1, if_false, Chan.makechan_panic memLimit closerSize size hcond]

theorem newPool_spec_witness :
    ((∃ e, NewPool memLimit48 countingFactory 2 = .ok (none, some e)) ↔ 2 = 0)
    ∧ NewPool memLimit48 countingFactory 2
        = .ok (some { res := { buf := [], cap := 2, closed := false },
                      factory := countingFactory, closed := false }, none)
    ∧ NewPool memLimit48 countingFactory (2 ^ 45) = .error Fault.panic :=
  ⟨(newPool_spec memLimit48 countingFactory 2 (by decide)).1,
    (newPool_spec memLimit48 countingFactory 2 (by decide)).2.1 (by decide) (by decide)
      (by decide),
    (newPool_spec memLimit48 countingFactory (2 ^ 45) (by decide)).2.2 (by decide)
      (Or.inr (by decide))⟩

/-! ## Theorems: the runner -/

section RunnerLemmas

variable {T W : Type}

theorem Runner.foldl_AddTask (bs : List (List T)) (r : Runner T) :
    bs.foldl Runner.AddTask r = { r with tasks := r.tasks ++ bs.flatten } := by
  induction bs generalizing r with
  | nil => simp
  | cons b bs ih => simp [ih, Runner.AddTask, List.append_assoc]

theorem Runner.isInterrupt_quiet (r : Runner T) (hb : r.interrupt.buf = [])
    (hc : r.interrupt.closed = false) : r.isInterrupt = (false, r) := by
  simp [Runner.isInterrupt, Chan.tryRecv_nil r.interrupt hb hc]

theorem Runner.runLoop_quiet (env : RunEnv T W) (r : Runner T)
    (hb : r.interrupt.buf = []) (hc : r.interrupt.closed = false) :
    ∀ (ts : List T) (index : Nat) (s : TaskWorld T W),
      (∀ i, index ≤ i → i < index + ts.length → env.arrives i = false) →
      Runner.runLoop env index ts r s
        = .ok (none, r,
            { st := (ts.enumFrom index).foldl (fun st x => env.exec x.2 x.1 st) s.st,
              ran := s.ran ++ (ts.enumFrom index).map (fun x => (x.2, x.1)) }) := by
  intro ts
  induction ts with
  | nil => intro index s _; simp [Runner.runLoop]
  | cons t ts ih =>
    intro index s hq
    have h0 : env.arrives index = false := hq index (Nat.le_refl _) (by simp)
    have hrest : ∀ i, index + 1 ≤ i → i < index + 1 + ts.length → env.arrives i = false := by
      intro i h1 h2
      exact hq i (by omega) (by simp only [List.length_cons]; omega)
    simp [Runner.runLoop, Runner.deliver, h0, Runner.isInterrupt_quiet r hb hc,
      ih (index + 1) _ hrest, Runner.callTask, List.enumFrom_cons]

theorem Runner.deliver_pending (a : Bool) (r : Runner T) (hc : r.interrupt.closed = false)
    (hpend : r.interrupt.buf ≠ [] ∨ (a = true ∧ r.notify = true ∧ 0 < r.interrupt.cap)) :
    ∃ r1, Runner.deliver a r = .ok r1 ∧ r1.tasks = r.tasks ∧ r1.interrupt.buf ≠ [] := by
  unfold Runner.deliver
  by_cases hcond : (a && r.notify) = true
  · by_cases hlt : r.interrupt.buf.length < r.interrupt.cap
    · refine ⟨{ r with interrupt :=
          { r.interrupt with buf := r.interrupt.buf ++ [Signal.Interrupt] } }, ?_, rfl, ?_⟩
      · simp [hcond, Chan.trySend, hc, hlt]
      · simp
    · refine ⟨r, ?_, rfl, ?_⟩
      · simp [hcond, Chan.trySend, hc, hlt]
      · intro hnil
        rw [hnil] at hlt
        rcases hpend with h | ⟨_, _, hpos⟩
        · exact h hnil
        · exact hlt (by simpa using hpos)
  · refine ⟨r, ?_, rfl, ?_⟩
    · simp [hcond]
    · rcases hpend with h | ⟨ha, hn, _⟩
      · exact h
      · simp [ha, hn] at hcond

end RunnerLemmas

/-- C5: for the runner built by `NewRunner` and any sequence of `AddTask` calls
and registered by `Start`, the task list is the concatenation of the batches in
call order, and a run during which no interrupt arrives returns nil after
calling every task exactly once, in list order, task `i` with argument `i`. -/
theorem run_without_interrupt {T W : Type} (env : RunEnv T W) (tm : Nat)
    (bs : List (List T)) (s : TaskWorld T W)
    (hquiet : ∀ i, i < bs.flatten.length → env.arrives i = false) :
    ((bs.foldl Runner.AddTask (NewRunner tm)).signalNotify).tasks = bs.flatten
    ∧ Runner.run env ((bs.foldl Runner.AddTask (NewRunner tm)).signalNotify) s
        = .ok (none, (bs.foldl Runner.AddTask (NewRunner tm)).signalNotify,
            { st := bs.flatten.enum.foldl (fun st x => env.exec x.2 x.1 st) s.st,
              ran := s.ran ++ bs.flatten.enum.map (fun x => (x.2, x.1)) }) := by
  have htasks : ((bs.foldl Runner.AddTask (NewRunner tm)).signalNotify).tasks
      = bs.flatten := by
    simp [Runner.foldl_AddTask, Runner.signalNotify, NewRunner]
  refine ⟨htasks, ?_⟩
  unfold Runner.run
  rw [htasks]
  refine Runner.runLoop_quiet env _ ?_ ?_ bs.flatten 0 s ?_
  · simp [Runner.foldl_AddTask, Runner.signalNotify, NewRunner, Chan.make]
  · simp [Runner.foldl_AddTask, Runner.signalNotify, NewRunner, Chan.make]
  · intro i _ hi
    exact hquiet i (by omega)

theorem run_without_interrupt_witness :
    (([[10, 20], [30]].foldl Runner.AddTask (NewRunner 5)).signalNotify).tasks
        = [10, 20, 30]
    ∧ Runner.run quietEnv (([[10, 20], [30]].foldl Runner.AddTask (NewRunner 5)).signalNotify)
          taskWorld0
        = .ok (none, ([[10, 20], [30]].foldl Runner.AddTask (NewRunner 5)).signalNotify,
            { st := [(10, 0), (20, 1), (30, 2)], ran := [(10, 0), (20, 1), (30, 2)] }) :=
  run_without_interrupt quietEnv 5 [[10, 20], [30]] taskWorld0 (fun _ _ => rfl)

/-- C6 as stated fails: the runner with an empty task list and an interrupt
already waiting in its channel returns nil from `run`, not `ErrInterrupt`; the
loop body, where the check is made, never executes. -/
theorem run_pending_no_tasks :
    Runner.run quietEnv (pendingRunner []) taskWorld0
      = .ok (none, pendingRunner [], taskWorld0)
    ∧ (pendingRunner []).interrupt.buf = [Signal.Interrupt] :=
  ⟨rfl, rfl⟩

/-- C6 amended: for every runner with a non-empty task list, if an interrupt is
pending before the first task (it waits in the channel, or it arrives before
the first check while the channel is registered and has room), `run` returns
`ErrInterrupt` and calls no task: the task world, log included, is unchanged.
The interrupt channel is open, as the program never closes it. -/
theorem run_interrupt_pending {T W : Type} (env : RunEnv T W) (r : Runner T)
    (s : TaskWorld T W) (hne : r.tasks ≠ []) (hopen : r.interrupt.closed = false)
    (hpend : r.interrupt.buf ≠ []
      ∨ (env.arrives 0 = true ∧ r.notify = true ∧ 0 < r.interrupt.cap)) :
    ∃ r1, Runner.run env r s = .ok (some Err.ErrInterrupt, r1, s)
      ∧ r1.tasks = r.tasks ∧ r1.notify = false := by
  obtain ⟨r1, hd, ht, hb⟩ := Runner.deliver_pending (env.arrives 0) r hopen hpend
  unfold Runner.run
  cases hts : r.tasks with
  | nil => exact absurd hts hne
  | cons t ts =>
    cases hbuf : r1.interrupt.buf with
    | nil => exact absurd hbuf hb
    | cons x xs =>
      refine ⟨{ r1 with interrupt := { r1.interrupt with buf := xs }, notify := false },
        ?_, ?_, rfl⟩
      · simp [Runner.runLoop, hd, Runner.isInterrupt, Chan.tryRecv_cons r1.interrupt x xs hbuf]
      · simpa [hts] using ht

theorem run_interrupt_pending_witness :
    ∃ r1, Runner.run quietEnv (pendingRunner [10, 20]) taskWorld0
        = .ok (some Err.ErrInterrupt, r1, taskWorld0)
      ∧ r1.tasks = (pendingRunner [10, 20]).tasks ∧ r1.notify = false :=
  run_interrupt_pending quietEnv (pendingRunner [10, 20]) taskWorld0
    (by simp [pendingRunner]) rfl (Or.inl (by simp [pendingRunner]))

/-! ## Theorems: sequences of pool calls -/

section ExecLemmas

variable {R W : Type}

theorem NewPool_some (memLimit : Nat) (fn : Factory R W) (size : Nat) (p0 : Pool R W)
    (h : NewPool memLimit fn size = .ok (some p0, none)) :
    0 < size ∧ p0 = { res := { buf := [], cap := size, closed := false },
                      factory := fn, closed := false } := by
  unfold NewPool at h
  by_cases hs : size ≤ 0
  · simp [hs] at h
  · simp only [hs, if_false] at h
    by_cases hr : 2 ^ 64 ≤ closerSize * size ∨ memLimit < closerSize * size ∨ 2 ^ 63 ≤ size
    · simp [Chan.makechan_panic memLimit closerSize size hr] at h
    · simp [Chan.makechan_ok memLimit closerSize size hr, Chan.make] at h
      exact ⟨by omega, h.symm⟩

theorem NewPool_WF (memLimit : Nat) (fn : Factory R W) (size : Nat) (p0 : Pool R W)
    (h : NewPool memLimit fn size = .ok (some p0, none)) :
    p0.WF ∧ p0.res.cap = size ∧ p0.res.buf = [] ∧ p0.closed = false
      ∧ p0.factory = fn := by
  obtain ⟨hpos, rfl⟩ := NewPool_some memLimit fn size p0 h
  exact ⟨⟨rfl, by simp, hpos⟩, rfl, rfl, rfl, rfl⟩

theorem Pool.Acquire_WF (p : Pool R W) (w : World R W) (hwf : p.WF) :
    (p.Acquire w).2.1.WF ∧ (p.Acquire w).2.1.res.cap = p.res.cap := by
  obtain ⟨h1, h2, h3⟩ := hwf
  unfold Pool.Acquire Chan.tryRecv
  cases hb : p.res.buf with
  | nil =>
    by_cases hc : p.res.closed = true
    · simp [hc, Pool.WF, hb, h3, ← h1]
    · simp [hc, Pool.WF, hb, h3, ← h1]
  | cons x xs =>
    rw [hb] at h2
    simp only [List.length_cons] at h2
    simp [Pool.WF, h3, ← h1]
    omega

theorem Pool.Release_WF (cl : Closer R W) (p : Pool R W) (r : R) (w : World R W)
    (hwf : p.WF) :
    ∃ e p1 w1, p.Release cl r w = .ok (e, p1, w1) ∧ p1.WF ∧ p1.res.cap = p.res.cap := by
  obtain ⟨h1, h2, h3⟩ := hwf
  unfold Pool.Release Chan.trySend
  by_cases hc : p.closed = true
  · exact ⟨(callClose cl r w).1, p, (callClose cl r w).2, by simp [hc], ⟨h1, h2, h3⟩, rfl⟩
  · have hc2 : p.res.closed = false := by rw [h1]; simpa using hc
    by_cases hlt : p.res.buf.length < p.res.cap
    · refine ⟨none, { p with res := { p.res with buf := p.res.buf ++ [r] } }, w, ?_, ?_, rfl⟩
      · simp [hc, hc2, hlt]
      · exact ⟨h1, by simp; omega, h3⟩
    · exact ⟨(callClose cl r w).1, p, (callClose cl r w).2, by simp [hc, hc2, hlt],
        ⟨h1, h2, h3⟩, rfl⟩

theorem Pool.Close_WF (cl : Closer R W) (p : Pool R W) (w : World R W) (hwf : p.WF) :
    ∃ e p1 w1, p.Close cl w = .ok (e, p1, w1) ∧ p1.WF ∧ p1.res.cap = p.res.cap := by
  obtain ⟨h1, h2, h3⟩ := hwf
  unfold Pool.Close Chan.close Chan.next
  by_cases hc : p.closed = true
  · exact ⟨some Err.ErrPoolClosed, p, w, by simp [hc], ⟨h1, h2, h3⟩, rfl⟩
  · have hc2 : p.res.closed = false := by rw [h1]; simpa using hc
    cases hb : p.res.buf with
    | nil =>
      refine ⟨none, { p with closed := true, res := { p.res with closed := true } }, w,
        ?_, ?_, rfl⟩
      · simp [hc, hc2, hb]
      · exact ⟨rfl, by simp [hb], h3⟩
    | cons x xs =>
      rw [hb] at h2
      simp only [List.length_cons] at h2
      refine ⟨(callClose cl x w).1,
        { p with closed := true, res := { buf := xs, cap := p.res.cap, closed := true } },
        (callClose cl x w).2, ?_, ?_, rfl⟩
      · simp [hc, hc2, hb]
      · exact ⟨rfl, by simp; omega, h3⟩

theorem Pool.step_WF (cl : Closer R W) (p : Pool R W) (w : World R W) (op : Op R)
    (hwf : p.WF) :
    ∃ p1 w1, Pool.step cl p w op = .ok (p1, w1) ∧ p1.WF ∧ p1.res.cap = p.res.cap := by
  cases op with
  | acquire =>
    exact ⟨_, _, rfl, (Pool.Acquire_WF p w hwf).1, (Pool.Acquire_WF p w hwf).2⟩
  | release r =>
    obtain ⟨e, p1, w1, h, hw, hcap⟩ := Pool.Release_WF cl p r w hwf
    exact ⟨p1, w1, by simp [Pool.step, h], hw, hcap⟩
  | close =>
    obtain ⟨e, p1, w1, h, hw, hcap⟩ := Pool.Close_WF cl p w hwf
    exact ⟨p1, w1, by simp [Pool.step, h], hw, hcap⟩

theorem Pool.exec_WF (cl : Closer R W) (ops : List (Op R)) :
    ∀ (p : Pool R W) (w : World R W), p.WF →
      ∃ p1 w1, Pool.exec cl ops p w = .ok (p1, w1) ∧ p1.WF ∧ p1.res.cap = p.res.cap := by
  induction ops with
  | nil => intro p w hwf; exact ⟨p, w, rfl, hwf, rfl⟩
  | cons op ops ih =>
    intro p w hwf
    obtain ⟨p1, w1, h, hw, hcap⟩ := Pool.step_WF cl p w op hwf
    obtain ⟨p2, w2, h2, hw2, hcap2⟩ := ih p1 w1 hw
    exact ⟨p2, w2, by simp [Pool.exec, h, h2], hw2, by rw [hcap2, hcap]⟩

end ExecLemmas

/-- C11: from a pool that `NewPool fn size` constructed, every sequence of
`Acquire`, `Release` and `Close` calls runs without fault and ends in a state
whose store holds at most `size` resources and whose capacity is still
`size`. -/
theorem store_bounded {R W : Type} (cl : Closer R W) (memLimit : Nat)
    (fn : Factory R W) (size : Nat) (p0 : Pool R W)
    (hnew : NewPool memLimit fn size = .ok (some p0, none)) (ops : List (Op R))
    (w : World R W) :
    ∃ p w1, Pool.exec cl ops p0 w = .ok (p, w1)
      ∧ p.res.buf.length ≤ size ∧ p.res.cap = size := by
  obtain ⟨hwf, hcap, -⟩ := NewPool_WF memLimit fn size p0 hnew
  obtain ⟨p, w1, h, hw, hc⟩ := Pool.exec_WF cl ops p0 w hwf
  refine ⟨p, w1, h, ?_, by rw [hc, hcap]⟩
  have := hw.2.1
  rw [hc, hcap] at this
  exact this

theorem store_bounded_witness :
    ∃ p w1, Pool.exec closeCount
        [Op.acquire, Op.release 1, Op.release 2, Op.release 3, Op.acquire, Op.close]
        { res := { buf := [], cap := 2, closed := false }, factory := countingFactory,
          closed := false } (countWorld 0) = .ok (p, w1)
      ∧ p.res.buf.length ≤ 2 ∧ p.res.cap = 2 :=
  store_bounded closeCount memLimit48 countingFactory 2 _ rfl _ (countWorld 0)

/-- C12: on an open pool whose store is not empty, `Acquire` returns the head
of the store (the resource idle for longest) with a nil error, calls nothing
(the world and its log are unchanged), and leaves the other idle resources in
the store in their order. -/
theorem acquire_from_store {R W : Type} (p : Pool R W) (w : World R W) (x : R)
    (xs : List R) (_hopen : p.closed = false) (hstore : p.res.buf = x :: xs) :
    p.Acquire w = ((some x, none), { p with res := { p.res with buf := xs } }, w) := by
  simp [Pool.Acquire, Chan.tryRecv_cons p.res x xs hstore]

theorem acquire_from_store_witness :
    (poolWith 3 [4, 5, 6]).Acquire world0 = ((some 4, none), poolWith 3 [5, 6], world0) :=
  acquire_from_store (poolWith 3 [4, 5, 6]) world0 4 [5, 6] rfl rfl

section ReleaseLemmas

variable {R W : Type}

theorem Pool.exec_releases (cl : Closer R W) (rs : List R) :
    ∀ (p : Pool R W) (w : World R W), p.WF → p.closed = false →
      ∃ p1 w1, Pool.exec cl (rs.map Op.release) p w = .ok (p1, w1)
        ∧ p1.res.buf = p.res.buf ++ rs.take (p.res.cap - p.res.buf.length)
        ∧ w1.calls = w.calls
            ++ (rs.drop (p.res.cap - p.res.buf.length)).map Call.close
        ∧ w1.st = ((rs.drop (p.res.cap - p.res.buf.length)).foldl
            (fun st r => (cl r st).2) w.st) := by
  induction rs with
  | nil => intro p w _ _; exact ⟨p, w, rfl, by simp, by simp, by simp⟩
  | cons r rs ih =>
    intro p w hwf hopen
    have hc : p.res.closed = false := hwf.chan_open hopen
    by_cases hlt : p.res.buf.length < p.res.cap
    · have hwf1 : (Pool.mk { p.res with buf := p.res.buf ++ [r] } p.factory p.closed).WF :=
        ⟨hwf.1, by simp; omega, hwf.2.2⟩
      obtain ⟨p1, w1, h, hb, hcalls, hst⟩ := ih _ w hwf1 hopen
      have hk : p.res.cap - p.res.buf.length = (p.res.cap - (p.res.buf.length + 1)) + 1 := by
        omega
      refine ⟨p1, w1, ?_, ?_, ?_, ?_⟩
      · simp [Pool.exec, Pool.step, Pool.Release, Chan.trySend, hopen, hc, hlt]
        simpa [hopen, hc] using h
      · rw [hb, hk]; simp
      · rw [hcalls, hk]; simp
      · rw [hst, hk]; simp
    · obtain ⟨p1, w1, h, hb, hcalls, hst⟩ := ih p (callClose cl r w).2 hwf hopen
      have hk : p.res.cap - p.res.buf.length = 0 := by omega
      refine ⟨p1, w1, ?_, ?_, ?_, ?_⟩
      · simp [Pool.exec, Pool.step, Pool.Release, Chan.trySend, hopen, hc, hlt]
        simpa using h
      · rw [hb, hk]; simp
      · rw [hcalls, hk]; simp [callClose]
      · rw [hst, hk]; simp [callClose]

theorem dbQuery_reuse (cl : Closer R W) (p : Pool R W) (w : World R W) (r : R)
    (hwf : p.WF) (hopen : p.closed = false) (hstore : p.res.buf = [r]) :
    dbQuery cl p w = .ok ((some r, none), p, w) := by
  have hc : p.res.closed = false := hwf.chan_open hopen
  have hpos := hwf.2.2
  obtain ⟨⟨buf, cap, closed⟩, fn, cflag⟩ := p
  simp only at hstore hopen hc hpos
  subst hstore hopen hc
  simp [dbQuery, Pool.Acquire, Chan.tryRecv, Pool.Release, Chan.trySend, hpos]

theorem cycles_reuse (cl : Closer R W) (p : Pool R W) (w : World R W) (r : R)
    (hwf : p.WF) (hopen : p.closed = false) (hstore : p.res.buf = [r]) (n : Nat) :
    cycles cl n p w = .ok (List.replicate n (some r, none), p, w) := by
  induction n with
  | zero => rfl
  | succ n ih => simp [cycles, dbQuery_reuse cl p w r hwf hopen hstore, ih, List.replicate]

end ReleaseLemmas

/-- C13: on a pool newly constructed with capacity `C`, `N > C` `Release` calls
in a row, in whatever order the resources come, run without fault, leave
exactly `C` resources idle in the store (the first `C` released) and close
exactly the `N - C` others, each once. -/
theorem releases_overflow {R W : Type} (cl : Closer R W) (memLimit : Nat)
    (fn : Factory R W) (C : Nat) (p0 : Pool R W)
    (hnew : NewPool memLimit fn C = .ok (some p0, none)) (rs : List R)
    (hN : C < rs.length) (w : World R W) :
    ∃ p w1, Pool.exec cl (rs.map Op.release) p0 w = .ok (p, w1)
      ∧ p.res.buf = rs.take C ∧ p.res.buf.length = C
      ∧ w1.calls = w.calls ++ (rs.drop C).map Call.close
      ∧ ((rs.drop C).map (Call.close (R := R))).length = rs.length - C := by
  obtain ⟨hwf, hcap, hbuf, hopen, -⟩ := NewPool_WF memLimit fn C p0 hnew
  obtain ⟨p, w1, h, hb, hcalls, -⟩ := Pool.exec_releases cl rs p0 w hwf hopen
  rw [hcap, hbuf] at hb hcalls
  simp only [List.length_nil, Nat.sub_zero, List.nil_append] at hb hcalls
  refine ⟨p, w1, h, hb, ?_, hcalls, by simp⟩
  rw [hb, List.length_take]
  omega

theorem releases_overflow_witness :
    ∃ p w1, Pool.exec closeCount ([7, 8, 9, 10, 11].map Op.release)
        { res := { buf := [], cap := 2, closed := false }, factory := countingFactory,
          closed := false } (countWorld 0) = .ok (p, w1)
      ∧ p.res.buf = [7, 8, 9, 10, 11].take 2 ∧ p.res.buf.length = 2
      ∧ w1.calls = (countWorld 0).calls ++ ([7, 8, 9, 10, 11].drop 2).map Call.close
      ∧ (([7, 8, 9, 10, 11].drop 2).map (Call.close (R := Nat))).length
          = [7, 8, 9, 10, 11].length - 2 :=
  releases_overflow closeCount memLimit48 countingFactory 2 _ rfl [7, 8, 9, 10, 11] (by decide)
    (countWorld 0)

/-- C14: on a pool newly constructed with capacity `C ≥ 1` whose factory
succeeds with resource `r`, `n ≥ 1` acquire-then-release cycles in a row call
the factory once in all, the `Acquire` of every cycle returns `r` with a nil
error, and no resource is closed: the log grows by one factory call only, and
`r` ends idle in the store. -/
theorem cycles_one_factory_call {R W : Type} (cl : Closer R W) (memLimit : Nat)
    (fn : Factory R W) (C : Nat) (p0 : Pool R W)
    (hnew : NewPool memLimit fn C = .ok (some p0, none)) (n : Nat) (hn : 1 ≤ n)
    (w : World R W) (r : R) (hfac : (fn w.st).1 = (some r, none)) :
    cycles cl n p0 w
      = .ok (List.replicate n (some r, none),
          { p0 with res := { p0.res with buf := [r] } },
          { st := (fn w.st).2, calls := w.calls ++ [Call.factory] }) := by
  obtain ⟨hpos, rfl⟩ := NewPool_some memLimit fn C p0 hnew
  obtain ⟨m, rfl⟩ : ∃ m, n = m + 1 := ⟨n - 1, by omega⟩
  have hfirst : dbQuery cl (Pool.mk { buf := [], cap := C, closed := false } fn false) w
      = .ok ((some r, none), Pool.mk { buf := [r], cap := C, closed := false } fn false,
          { st := (fn w.st).2, calls := w.calls ++ [Call.factory] }) := by
    simp [dbQuery, Pool.Acquire, Chan.tryRecv, callFactory, hfac, Pool.Release,
      Chan.trySend, hpos]
  have hrest := cycles_reuse cl (Pool.mk { buf := [r], cap := C, closed := false } fn false)
    { st := (fn w.st).2, calls := w.calls ++ [Call.factory] } r
    ⟨rfl, by simp; omega, hpos⟩ rfl rfl m
  simp [cycles, hfirst, hrest, List.replicate]

theorem cycles_one_factory_call_witness :
    cycles closeCount 3
        { res := { buf := [], cap := 2, closed := false }, factory := countingFactory,
          closed := false } (countWorld 0)
      = .ok ([(some 1, none), (some 1, none), (some 1, none)],
          { res := { buf := [1], cap := 2, closed := false }, factory := countingFactory,
            closed := false },
          { st := 1, calls := [Call.factory] }) :=
  cycles_one_factory_call closeCount memLimit48 countingFactory 2 _ rfl 3 (by decide)
    (countWorld 0) 1
    rfl

/-- C15 (the code departs from it): on the open pool of capacity 2 that holds
the idle resources 1 and 2, when the `Close` of resource 1 fails, `Close`
returns that error and never calls `Close` on resource 2, which stays in the
store; when only the `Close` of resource 2 would fail, `Close` returns nil
without having called it. -/
theorem close_stops_after_first :
    (Pool.Close (closeFailing 1) (poolWith 2 [1, 2]) world0).view
        = .ok (some (Err.New "close failed"), [2], true, [Call.close 1])
    ∧ (Pool.Close (closeFailing 2) (poolWith 2 [1, 2]) world0).view
        = .ok (none, [2], true, [Call.close 1])
    ∧ (closeFailing 2 2 ()).1 = some (Err.New "close failed") :=
  ⟨rfl, rfl, rfl⟩

/-- C19: on an open pool whose store holds `x` followed by `xs`, `Close` calls
`Close` on `x` only, returns that call's result, and leaves `xs` unclosed in
the store of the now closed pool, whose channel is closed; on an open pool
with an empty store it calls nothing and returns nil. -/
theorem close_open {R W : Type} (cl : Closer R W) (p : Pool R W) (w : World R W)
    (hwf : p.WF) (hopen : p.closed = false) :
    (∀ x xs, p.res.buf = x :: xs →
      p.Close cl w
        = .ok ((cl x w.st).1,
            { p with closed := true,
                     res := { buf := xs, cap := p.res.cap, closed := true } },
            { st := (cl x w.st).2, calls := w.calls ++ [Call.close x] }))
    ∧ (p.res.buf = [] →
      p.Close cl w
        = .ok (none, { p with closed := true, res := { p.res with closed := true } },
            w)) := by
  have hc : p.res.closed = false := hwf.chan_open hopen
  constructor
  · intro x xs hb
    simp [Pool.Close, Chan.close, Chan.next, hopen, hc, hb, callClose]
  · intro hb
    simp [Pool.Close, Chan.close, Chan.next, hopen, hc, hb]

theorem close_open_witness :
    Pool.Close closeOk (poolWith 3 [4, 5, 6]) world0
        = .ok (none, closedPoolWith 3 [5, 6], { st := (), calls := [Call.close 4] })
    ∧ Pool.Close closeOk (poolWith 3 []) world0
        = .ok (none, closedPoolWith 3 [], world0) :=
  ⟨(close_open closeOk (poolWith 3 [4, 5, 6]) world0 ⟨rfl, by decide, by decide⟩ rfl).1
      4 [5, 6] rfl,
    (close_open closeOk (poolWith 3 []) world0 ⟨rfl, by decide, by decide⟩ rfl).2 rfl⟩

section ClientLemmas

variable {R W : Type} [DecidableEq R]

theorem Client.step_acquire_Inv (cl : Closer R W) (c c1 : Client R W) (hinv : c.Inv)
    (h : Client.step cl c Op.acquire = some c1) : c1.Inv := by
  obtain ⟨⟨⟨buf, cap, closed⟩, fn, flag⟩, w, held⟩ := c
  obtain ⟨h1, h2, h3, h4, h5⟩ := hinv
  simp only at h1 h2 h3 h4 h5
  cases buf with
  | nil =>
    cases closed with
    | true =>
      simp [Client.step, Pool.Acquire, Chan.tryRecv] at h
      subst h
      exact ⟨h1, h2, h3, h4, h5⟩
    | false =>
      simp only [Client.step, Pool.Acquire, Chan.tryRecv, callFactory] at h
      cases hf : (fn w.st).1.1 with
      | none =>
        simp [hf] at h
        subst h
        refine ⟨h1, h2, h3, by simp, ?_⟩
        intro r hr
        simpa using h5 r hr
      | some r =>
        simp [hf, Client.fresh] at h
        obtain ⟨⟨hr1, hr2⟩, rfl⟩ := h
        refine ⟨h1, ?_, by simp, by simp, ?_⟩
        · exact List.Nodup.append h2 (List.nodup_singleton r) (by simpa using hr1)
        · intro x hx
          rcases List.mem_append.1 hx with hx | hx
          · simpa using h5 x hx
          · have : x = r := by simpa using hx
            subst this
            simpa using hr2
  | cons x xs =>
    simp [Client.step, Pool.Acquire, Chan.tryRecv] at h
    subst h
    have hx : x ∉ xs := (List.nodup_cons.1 h1).1
    have hxs : xs.Nodup := (List.nodup_cons.1 h1).2
    refine ⟨hxs, ?_, ?_, ?_, ?_⟩
    · exact List.Nodup.append h2 (List.nodup_singleton x)
        (by simpa using h3 x (List.mem_cons_self x xs))
    · intro r hr hmem
      rcases List.mem_append.1 hmem with hm | hm
      · exact h3 r (List.mem_cons_of_mem x hr) hm
      · have : r = x := by simpa using hm
        subst this
        exact hx hr
    · intro r hr
      exact h4 r (List.mem_cons_of_mem x hr)
    · intro r hr
      rcases List.mem_append.1 hr with hm | hm
      · exact h5 r hm
      · have : r = x := by simpa using hm
        subst this
        exact h4 r (List.mem_cons_self r xs)

theorem Client.step_release_Inv (cl : Closer R W) (c c1 : Client R W) (r : R)
    (hinv : c.Inv) (h : Client.step cl c (Op.release r) = some c1) : c1.Inv := by
  obtain ⟨⟨⟨buf, cap, closed⟩, fn, flag⟩, w, held⟩ := c
  obtain ⟨h1, h2, h3, h4, h5⟩ := hinv
  simp only at h1 h2 h3 h4 h5
  by_cases hr : r ∈ held
  · have hrb : r ∉ buf := fun hb => h3 r hb hr
    have herase : ∀ x ∈ held.erase r, x ∈ held ∧ x ≠ r := by
      intro x hx
      exact ⟨List.mem_of_mem_erase hx, fun hxr => by
        subst hxr
        exact (List.Nodup.mem_erase_iff h2).1 hx |>.1 rfl⟩
    have hclosedCase : (Client.mk (Pool.mk ⟨buf, cap, closed⟩ fn flag)
        (callClose cl r w).2 (held.erase r)).Inv := by
      refine ⟨h1, List.Nodup.erase r h2, ?_, ?_, ?_⟩
      · intro x hx hm
        exact h3 x hx (herase x hm).1
      · intro x hx
        have hne : x ≠ r := fun hxr => hrb (hxr ▸ hx)
        simpa [callClose, hne] using h4 x hx
      · intro x hx
        simpa [callClose, (herase x hx).2] using h5 x (herase x hx).1
    simp only [Client.step, hr, if_true, Pool.Release, Chan.trySend] at h
    cases flag with
    | true =>
      simp at h
      subst h
      exact hclosedCase
    | false =>
      cases closed with
      | true => simp at h
      | false =>
        by_cases hlt : buf.length < cap
        · simp [hlt] at h
          subst h
          refine ⟨?_, List.Nodup.erase r h2, ?_, ?_, ?_⟩
          · exact List.Nodup.append h1 (List.nodup_singleton r) (by simpa using hrb)
          · intro x hx hm
            rcases List.mem_append.1 hx with hx | hx
            · exact h3 x hx (herase x hm).1
            · have : x = r := by simpa using hx
              exact (herase x hm).2 this
          · intro x hx
            rcases List.mem_append.1 hx with hx | hx
            · exact h4 x hx
            · have : x = r := by simpa using hx
              subst this
              exact h5 x hr
          · intro x hx
            exact h5 x (herase x hx).1
        · simp [hlt] at h
          subst h
          exact hclosedCase
  · simp [Client.step, hr] at h

theorem Client.step_close_Inv (cl : Closer R W) (c c1 : Client R W)
    (hinv : c.Inv) (h : Client.step cl c Op.close = some c1) : c1.Inv := by
  obtain ⟨⟨⟨buf, cap, closed⟩, fn, flag⟩, w, held⟩ := c
  obtain ⟨h1, h2, h3, h4, h5⟩ := hinv
  simp only at h1 h2 h3 h4 h5
  simp only [Client.step, Pool.Close, Chan.close, Chan.next] at h
  cases flag with
  | true =>
    simp at h
    subst h
    exact ⟨h1, h2, h3, h4, h5⟩
  | false =>
    cases closed with
    | true => simp at h
    | false =>
      cases buf with
      | nil =>
        simp at h
        subst h
        exact ⟨h1, h2, h3, h4, h5⟩
      | cons x xs =>
        simp at h
        subst h
        have hx : x ∉ xs := (List.nodup_cons.1 h1).1
        refine ⟨(List.nodup_cons.1 h1).2, h2, ?_, ?_, ?_⟩
        · intro r hr
          exact h3 r (List.mem_cons_of_mem x hr)
        · intro r hr
          have hne : r ≠ x := fun hrx => hx (hrx ▸ hr)
          simpa [callClose, hne] using h4 r (List.mem_cons_of_mem x hr)
        · intro r hr
          have hne : r ≠ x := fun hrx => h3 x (List.mem_cons_self x xs) (hrx ▸ hr)
          simpa [callClose, hne] using h5 r hr

theorem Client.run_Inv (cl : Closer R W) (ops : List (Op R)) :
    ∀ (c c1 : Client R W), c.Inv → Client.run cl ops c = some c1 → c1.Inv := by
  induction ops with
  | nil =>
    intro c c1 hinv h
    simp [Client.run] at h
    subst h
    exact hinv
  | cons op ops ih =>
    intro c c1 hinv h
    simp only [Client.run] at h
    cases hs : Client.step cl c op with
    | none => simp [hs] at h
    | some c2 =>
      simp only [hs] at h
      refine ih c2 c1 ?_ h
      cases op with
      | acquire => exact Client.step_acquire_Inv cl c c2 hinv hs
      | release r => exact Client.step_release_Inv cl c c2 r hinv hs
      | close => exact Client.step_close_Inv cl c c2 hinv hs

end ClientLemmas

/-- C20: from a newly constructed pool, after any sequence of `Acquire`,
`Release` and `Close` calls by a client that releases only resources it holds
and whose factory makes fresh resources, no resource appears in the store
twice, no resource in the store has had `Close` called on it by the pool, and
an `Acquire` that takes a resource from the store returns one on which the
pool has called no `Close`. -/
theorem pool_never_keeps_closed {R W : Type} [DecidableEq R] (cl : Closer R W)
    (memLimit : Nat) (fn : Factory R W) (size : Nat) (p0 : Pool R W)
    (hnew : NewPool memLimit fn size = .ok (some p0, none)) (w : World R W)
    (ops : List (Op R))
    (c : Client R W)
    (hrun : Client.run cl ops { pool := p0, world := w, held := [] } = some c) :
    c.pool.res.buf.Nodup
    ∧ (∀ r ∈ c.pool.res.buf, Call.close r ∉ c.world.calls)
    ∧ (∀ r, c.pool.res.buf.head? = some r →
        (c.pool.Acquire c.world).1 = (some r, none)
          ∧ Call.close r ∉ (c.pool.Acquire c.world).2.2.calls) := by
  obtain ⟨-, -, hbuf, -⟩ := NewPool_WF memLimit fn size p0 hnew
  have hinit : (Client.mk p0 w []).Inv :=
    ⟨by simp [hbuf], by simp, by simp, by simp [hbuf], by simp⟩
  have hinv := Client.run_Inv cl ops _ c hinit hrun
  refine ⟨hinv.store_nodup, hinv.store_open, ?_⟩
  intro r hr
  cases hb : c.pool.res.buf with
  | nil => simp [hb] at hr
  | cons x xs =>
    have hxr : x = r := by simpa [hb] using hr
    subst hxr
    have hacq := Chan.tryRecv_cons c.pool.res x xs hb
    refine ⟨by simp [Pool.Acquire, hacq], ?_⟩
    have := hinv.store_open x (by simp [hb])
    simpa [Pool.Acquire, hacq] using this

theorem pool_never_keeps_closed_witness :
    [2].Nodup
    ∧ (∀ r ∈ [2], Call.close r ∉ [Call.factory, Call.factory, Call.close 1])
    ∧ (∀ r, [2].head? = some r →
        ((Pool.mk { buf := [2], cap := 2, closed := true } countingFactory true).Acquire
            { st := 2, calls := [Call.factory, Call.factory, Call.close 1] }).1
          = (some r, none)
        ∧ Call.close r ∉
          ((Pool.mk { buf := [2], cap := 2, closed := true } countingFactory true).Acquire
            { st := 2, calls := [Call.factory, Call.factory, Call.close 1] }).2.2.calls) :=
  pool_never_keeps_closed closeCount memLimit48 countingFactory 2
    { res := { buf := [], cap := 2, closed := false }, factory := countingFactory,
      closed := false } rfl (countWorld 0)
    [Op.acquire, Op.acquire, Op.release 1, Op.release 2, Op.close]
    { pool := { res := { buf := [2], cap := 2, closed := true },
                factory := countingFactory, closed := true },
      world := { st := 2, calls := [Call.factory, Call.factory, Call.close 1] },
      held := [] } rfl

/-! ## Theorems: starting the runner -/

section StartLemmas

variable {T W : Type}

theorem Runner.deliver_open (a : Bool) (r : Runner T) (hc : r.interrupt.closed = false) :
    ∃ r1, Runner.deliver a r = .ok r1 ∧ r1.interrupt.closed = false := by
  unfold Runner.deliver Chan.trySend
  by_cases hcond : (a && r.notify) = true
  · by_cases hlt : r.interrupt.buf.length < r.interrupt.cap
    · exact ⟨{ r with interrupt :=
          { r.interrupt with buf := r.interrupt.buf ++ [Signal.Interrupt] } },
        by simp [hcond, hc, hlt], hc⟩
    · exact ⟨r, by simp [hcond, hc, hlt], hc⟩
  · exact ⟨r, by simp [hcond], hc⟩

theorem Runner.isInterrupt_open (r : Runner T) (hc : r.interrupt.closed = false) :
    r.isInterrupt.2.interrupt.closed = false := by
  unfold Runner.isInterrupt Chan.tryRecv
  cases hb : r.interrupt.buf with
  | nil => simp [hc]
  | cons x xs => simp [hc]

theorem Runner.runLoop_result (env : RunEnv T W) (ts : List T) :
    ∀ (index : Nat) (r : Runner T) (s : TaskWorld T W), r.interrupt.closed = false →
      ∃ e r1 s1, Runner.runLoop env index ts r s = .ok (e, r1, s1)
        ∧ (e = none ∨ e = some Err.ErrInterrupt) := by
  induction ts with
  | nil => intro index r s _; exact ⟨none, r, s, rfl, Or.inl rfl⟩
  | cons t ts ih =>
    intro index r s hc
    obtain ⟨r1, hd, hc1⟩ := Runner.deliver_open (env.arrives index) r hc
    by_cases hi : r1.isInterrupt.1 = true
    · exact ⟨some Err.ErrInterrupt, r1.isInterrupt.2, s, by simp [Runner.runLoop, hd, hi],
        Or.inr rfl⟩
    · obtain ⟨e, r2, s2, h, he⟩ := ih (index + 1) r1.isInterrupt.2
        (Runner.callTask env t index s) (Runner.isInterrupt_open r1 hc1)
      exact ⟨e, r2, s2, by simp [Runner.runLoop, hd, hi, h], he⟩

end StartLemmas

/-- C16: for every runner whose interrupt channel is open, every case the
`select` takes and every pattern of interrupt arrivals, `Start` returns, and
what it returns is nil, `ErrTimeOut` or `ErrInterrupt`: when the worker's
result is received it is the result of `run`, which is nil or `ErrInterrupt`,
and when the timer is received it is `ErrTimeOut`.  The three values are
pairwise distinct. -/
theorem start_outcomes {T W : Type} (env : RunEnv T W) (race : Race) (r : Runner T)
    (s : TaskWorld T W) (hopen : r.interrupt.closed = false) :
    ∃ e, Runner.Start env race r s = .ok e
      ∧ (e = none ∨ e = some Err.ErrTimeOut ∨ e = some Err.ErrInterrupt)
      ∧ (race = Race.complete →
          (∃ r1 s1, Runner.run env r.signalNotify s = .ok (e, r1, s1))
            ∧ (e = none ∨ e = some Err.ErrInterrupt))
      ∧ (race = Race.timeout → e = some Err.ErrTimeOut)
      ∧ (none : Option Err) ≠ some Err.ErrTimeOut
      ∧ (none : Option Err) ≠ some Err.ErrInterrupt
      ∧ some Err.ErrTimeOut ≠ some Err.ErrInterrupt := by
  cases race with
  | timeout =>
    exact ⟨some Err.ErrTimeOut, rfl, Or.inr (Or.inl rfl), by simp, by simp, by simp,
      by simp, by simp⟩
  | complete =>
    obtain ⟨e, r1, s1, h, he⟩ := Runner.runLoop_result env r.signalNotify.tasks 0
      r.signalNotify s hopen
    have hrun : Runner.run env r.signalNotify s = .ok (e, r1, s1) := h
    refine ⟨e, by simp [Runner.Start, hrun], ?_, ?_, by simp, by simp, by simp, by simp⟩
    · rcases he with he | he
      · exact Or.inl he
      · exact Or.inr (Or.inr he)
    · intro _
      exact ⟨⟨r1, s1, hrun⟩, he⟩

theorem start_outcomes_witness :
    ∃ e, Runner.Start quietEnv Race.complete (pendingRunner [10, 20]) taskWorld0 = .ok e
      ∧ (e = none ∨ e = some Err.ErrTimeOut ∨ e = some Err.ErrInterrupt)
      ∧ (Race.complete = Race.complete →
          (∃ r1 s1, Runner.run quietEnv (pendingRunner [10, 20]).signalNotify taskWorld0
              = .ok (e, r1, s1))
            ∧ (e = none ∨ e = some Err.ErrInterrupt))
      ∧ (Race.complete = Race.timeout → e = some Err.ErrTimeOut)
      ∧ (none : Option Err) ≠ some Err.ErrTimeOut
      ∧ (none : Option Err) ≠ some Err.ErrInterrupt
      ∧ some Err.ErrTimeOut ≠ some Err.ErrInterrupt :=
  start_outcomes quietEnv Race.complete (pendingRunner [10, 20]) taskWorld0 rfl

section InterruptLemmas

variable {T W : Type}

theorem Runner.runLoop_until (env : RunEnv T W) (r : Runner T)
    (hb : r.interrupt.buf = []) (hc : r.interrupt.closed = false)
    (hn : r.notify = true) (hcap : 0 < r.interrupt.cap) (t : T) (rest : List T) :
    ∀ (pre : List T) (index : Nat) (s : TaskWorld T W),
      (∀ i, index ≤ i → i < index + pre.length → env.arrives i = false) →
      env.arrives (index + pre.length) = true →
      ∃ r1, Runner.runLoop env index (pre ++ t :: rest) r s
        = .ok (some Err.ErrInterrupt, r1,
            { st := (pre.enumFrom index).foldl (fun st x => env.exec x.2 x.1 st) s.st,
              ran := s.ran ++ (pre.enumFrom index).map (fun x => (x.2, x.1)) }) := by
  intro pre
  induction pre with
  | nil =>
    intro index s _ harr
    simp only [List.length_nil, Nat.add_zero] at harr
    refine ⟨{ r with interrupt := { r.interrupt with buf := [] }, notify := false }, ?_⟩
    simp [Runner.runLoop, Runner.deliver, harr, hn, Chan.trySend, hc, hb, hcap,
      Runner.isInterrupt, Chan.tryRecv]
  | cons u pre ih =>
    intro index s hq harr
    have h0 : env.arrives index = false := hq index (Nat.le_refl _) (by simp)
    have hrest : ∀ i, index + 1 ≤ i → i < index + 1 + pre.length → env.arrives i = false := by
      intro i h1 h2
      exact hq i (by omega) (by simp only [List.length_cons]; omega)
    have harr1 : env.arrives (index + 1 + pre.length) = true := by
      have : index + (u :: pre).length = index + 1 + pre.length := by
        simp only [List.length_cons]; omega
      rw [← this]; exact harr
    obtain ⟨r1, h⟩ := ih (index + 1) (Runner.callTask env u index s) hrest harr1
    refine ⟨r1, ?_⟩
    simp [Runner.runLoop, Runner.deliver, h0, Runner.isInterrupt_quiet r hb hc,
      Runner.callTask, List.enumFrom_cons]
    simpa [Runner.callTask] using h

end InterruptLemmas

/-- C18: let the interrupt channel of a registered runner be empty and let no
interrupt arrive before the checks of tasks `0..k-1`.  If `k < n` and an
interrupt arrives before the check of task `k`, `run` returns `ErrInterrupt`
having called exactly tasks `0..k-1`, each once, in order, each with its own
index, and none of the tasks `k..n-1`.  If no interrupt arrives before any of
the `n` checks, then whatever arrives later, `run` calls all the tasks and
returns nil. -/
theorem run_interrupt_at {T W : Type} (env : RunEnv T W) (r : Runner T)
    (s : TaskWorld T W) (k : Nat) (hb : r.interrupt.buf = [])
    (hc : r.interrupt.closed = false) (hn : r.notify = true)
    (hcap : 0 < r.interrupt.cap) (hquiet : ∀ i, i < k → env.arrives i = false) :
    (k < r.tasks.length → env.arrives k = true →
      ∃ r1, Runner.run env r s
        = .ok (some Err.ErrInterrupt, r1,
            { st := (r.tasks.take k).enum.foldl (fun st x => env.exec x.2 x.1 st) s.st,
              ran := s.ran ++ (r.tasks.take k).enum.map (fun x => (x.2, x.1)) }))
    ∧ (r.tasks.length ≤ k →
      Runner.run env r s
        = .ok (none, r,
            { st := r.tasks.enum.foldl (fun st x => env.exec x.2 x.1 st) s.st,
              ran := s.ran ++ r.tasks.enum.map (fun x => (x.2, x.1)) })) := by
  constructor
  · intro hk harr
    have hlen : (r.tasks.take k).length = k := by
      rw [List.length_take]; omega
    obtain ⟨t, rest, hdrop⟩ : ∃ t rest, r.tasks.drop k = t :: rest := by
      cases hd : r.tasks.drop k with
      | nil =>
        have := congrArg List.length hd
        simp at this
        omega
      | cons t rest => exact ⟨t, rest, rfl⟩
    have hsplit : r.tasks = r.tasks.take k ++ t :: rest := by
      rw [← hdrop, List.take_append_drop]
    obtain ⟨r1, h⟩ := Runner.runLoop_until env r hb hc hn hcap t rest (r.tasks.take k) 0 s
      (fun i _ hi => hquiet i (by omega)) (by rw [hlen]; simpa using harr)
    refine ⟨r1, ?_⟩
    have hrun : Runner.run env r s
        = Runner.runLoop env 0 (r.tasks.take k ++ t :: rest) r s :=
      congrArg (fun l => Runner.runLoop env 0 l r s) hsplit
    rw [hrun, h]
    rfl
  · intro hk
    exact Runner.runLoop_quiet env r hb hc r.tasks 0 s (fun i _ hi => hquiet i (by omega))

theorem run_interrupt_at_witness :
    (∃ r1, Runner.run (arrivesAt 1) (armedRunner [10, 20, 30]) taskWorld0
        = .ok (some Err.ErrInterrupt, r1, { st := [(10, 0)], ran := [(10, 0)] }))
    ∧ Runner.run (arrivesAt 3) (armedRunner [10, 20, 30]) taskWorld0
        = .ok (none, armedRunner [10, 20, 30],
            { st := [(10, 0), (20, 1), (30, 2)], ran := [(10, 0), (20, 1), (30, 2)] }) :=
  ⟨(run_interrupt_at (arrivesAt 1) (armedRunner [10, 20, 30]) taskWorld0 1 rfl rfl rfl
      (by decide) (by decide)).1 (by decide) rfl,
    (run_interrupt_at (arrivesAt 3) (armedRunner [10, 20, 30]) taskWorld0 3 rfl rfl rfl
      (by decide) (by decide)).2 (by decide)⟩

end PoolRunner
